import Mathlib

/-!
Shallow embedding of `src/6_Threads/7_ProdCons.c`, a bounded circular-buffer
producer/consumer pipeline, together with proofs of its specification.

The C program keeps a global `struct prodcons` holding an integer array
`buffer[BUFFER_SIZE]`, two indices `read` and `write`, a mutex and two
condition variables.  `Store` writes one item when the buffer is not full,
`Get` removes one item when the buffer is not empty; otherwise the caller
blocks.  A blocked call performs no state change, so we embed one attempt of
each operation as an `Option`-valued function: `none` models "the caller must
wait", `some` models the completed critical section.  The producer pushes
`0, 1, ..., COUNT-1` followed by the sentinel `LIMIT`; the consumer pops and
prints values until it pops the sentinel.  The whole pipeline is embedded as a
small-step transition relation over configurations; an interleaving of the two
threads is an arbitrary path of that relation.
-/

namespace ProdConsC

/-- `#define BUFFER_SIZE 4` from the source. -/
def BUFFER_SIZE : Nat := 4

/-- `const int LIMIT = -1;` from the source: the end-of-stream sentinel. -/
def LIMIT : Int := -1

/-- `const int COUNT = 11;` from the source: number of data items produced. -/
def COUNT : Nat := 11

/-- The shared `struct prodcons`, minus the synchronization primitives (mutex
and condition variables carry no data; blocking is modelled by the `Option`
results of `Store` and `Get`).  The array is a list of length `N`. -/
structure Prodcons where
  buffer : List Int
  read : Nat
  write : Nat
deriving DecidableEq, Repr

/-- Embeds `init`: both indices are zeroed.  The C global array is
zero-initialized.  The return codes of `pthread_mutex_init` and
`pthread_cond_init` are discarded by the C code, so they do not appear here;
see `mainStartup` for the startup control flow. -/
def init (N : Nat) : Prodcons :=
  ⟨List.replicate N 0, 0, 0⟩

/-- Embeds one attempt of `Store`: if the buffer is full
(`(write + 1) % N == read`) the caller waits (`none`); otherwise the item is
written at `write` and `write` is incremented with wrap-around
(`b->write++; if (b->write >= BUFFER_SIZE) b->write = 0;`). -/
def Store (N : Nat) (b : Prodcons) (data : Int) : Option Prodcons :=
  if (b.write + 1) % N = b.read then none
  else some ⟨b.buffer.set b.write data, b.read,
    if b.write + 1 ≥ N then 0 else b.write + 1⟩

/-- Embeds one attempt of `Get`: if the buffer is empty (`write == read`) the
caller waits (`none`); otherwise the item at `read` is returned and `read` is
incremented with wrap-around. -/
def Get (N : Nat) (b : Prodcons) : Option (Int × Prodcons) :=
  if b.write = b.read then none
  else some (b.buffer.getD b.read 0,
    ⟨b.buffer, if b.read + 1 ≥ N then 0 else b.read + 1, b.write⟩)

/-- Abstraction function: the queue of items currently held by the circular
buffer, in FIFO order (slot `read` first). -/
def contents (N : Nat) (b : Prodcons) : List Int :=
  if b.read ≤ b.write then (b.buffer.drop b.read).take (b.write - b.read)
  else b.buffer.drop b.read ++ b.buffer.take b.write

/-- The value pushed by the `n`-th `Store` call of `Producer` (with `COUNT`
generalized to `cnt`): the loop pushes `n` for `n < cnt`, then the sentinel. -/
def prodValue (cnt : Nat) (n : Nat) : Int :=
  if n < cnt then Int.ofNat n else LIMIT

/-- The sequence pushed by the first `p` `Store` calls of the producer. -/
def pushedList (cnt p : Nat) : List Int :=
  (List.range p).map (prodValue cnt)

/-- The data items `0, 1, ..., cnt-1` the producer pushes before the
sentinel. -/
def prodInput (cnt : Nat) : List Int :=
  (List.range cnt).map Int.ofNat

/-- A configuration of the two-thread pipeline: the shared buffer, the number
`p` of `Store` calls the producer has completed (the producer's only state is
its loop counter), whether the consumer has observed the sentinel and
terminated, the values printed by the consumer, and the values popped by the
consumer (in order). -/
structure Config where
  buf : Prodcons
  p : Nat
  consDone : Bool
  output : List Int
  popped : List Int
deriving DecidableEq, Repr

/-- The initial configuration: `init` has run, neither thread has acted. -/
def initConfig (N : Nat) : Config :=
  ⟨init N, 0, false, [], []⟩

/-- One interleaved step of the pipeline.  `prod`: the producer, having
completed `p < cnt + 1` of its `cnt + 1` `Store` calls, completes the next one
(possible exactly when the buffer is not full).  `cons`: the consumer, not yet
terminated, completes a `Get` (possible exactly when the buffer is not empty),
prints the value unless it is the sentinel, and terminates if it is. -/
inductive Step (N cnt : Nat) : Config → Config → Prop
  | prod (c : Config) (b' : Prodcons) :
      c.p < cnt + 1 →
      Store N c.buf (prodValue cnt c.p) = some b' →
      Step N cnt c ⟨b', c.p + 1, c.consDone, c.output, c.popped⟩
  | cons (c : Config) (v : Int) (b' : Prodcons) :
      c.consDone = false →
      Get N c.buf = some (v, b') →
      Step N cnt c ⟨b', c.p, decide (v = LIMIT),
        if v = LIMIT then c.output else c.output ++ [v],
        c.popped ++ [v]⟩

/-- Configurations reachable from the initial one by some interleaving. -/
def Reachable (N cnt : Nat) (c : Config) : Prop :=
  Relation.ReflTransGen (Step N cnt) (initConfig N) c

/-- Executable producer step (used to build concrete runs). -/
def doProd (N cnt : Nat) (c : Config) : Option Config :=
  if c.p < cnt + 1 then
    match Store N c.buf (prodValue cnt c.p) with
    | some b' => some ⟨b', c.p + 1, c.consDone, c.output, c.popped⟩
    | none => none
  else none

/-- Executable consumer step (used to build concrete runs). -/
def doCons (N cnt : Nat) (c : Config) : Option Config :=
  if c.consDone = false then
    match Get N c.buf with
    | some (v, b') => some ⟨b', c.p, decide (v = LIMIT),
        if v = LIMIT then c.output else c.output ++ [v],
        c.popped ++ [v]⟩
    | none => none
  else none

/-- Run a concrete schedule: `true` schedules the producer, `false` the
consumer; the whole run fails if any scheduled operation would block. -/
def execOps (N cnt : Nat) : List Bool → Config → Option Config
  | [], c => some c
  | op :: rest, c =>
    match (if op then doProd N cnt c else doCons N cnt c) with
    | some c' => execOps N cnt rest c'
    | none => none

/-- Events of `main`'s startup sequence, in program order. -/
inductive StartupEvent
  | callInit
  | seedRandom
  | spawnConsumer
  | spawnProducer
  | abortRun
deriving DecidableEq, Repr

/-- Embeds the startup portion of `main`, parameterized by the return codes
the three `pthread_*_init` calls inside `init` would yield.  The C code
discards those return codes: `init` unconditionally zeroes the indices and
returns, and `main` unconditionally calls `srand` and then spawns the consumer
and the producer.  No code path examines the return codes and no abort path
exists. -/
def mainStartup (rcMutex rcNotEmpty rcNotFull : Int) : List StartupEvent :=
  [StartupEvent.callInit, StartupEvent.seedRandom,
   StartupEvent.spawnConsumer, StartupEvent.spawnProducer]

/-- Termination measure for the pipeline: pending producer pushes plus pending
consumer pops (the consumer pops at most `cnt + 1` values). -/
def measureC (cnt : Nat) (c : Config) : Nat :=
  (cnt + 1 - c.p) + (cnt + 1 - c.popped.length)

/-- A tiny concrete schedule: one push, one pop. -/
def schedSmall : List Bool := [true, false]

/-- The configuration after running `schedSmall` with `N = 2`, `cnt = 0`:
the producer pushes only the sentinel and the consumer pops it. -/
def wSmall : Config := (execOps 2 0 schedSmall (initConfig 2)).getD (initConfig 2)

/-- A full alternating schedule for the concrete scenario `N = 4`,
`COUNT = 11`: each of the 12 pushes is immediately followed by a pop. -/
def schedFull : List Bool := (List.replicate 12 [true, false]).flatten

/-- The final configuration of the concrete scenario run. -/
def wFull : Config :=
  (execOps BUFFER_SIZE COUNT schedFull (initConfig BUFFER_SIZE)).getD
    (initConfig BUFFER_SIZE)

/-- A concrete buffer state that is neither full nor empty
(`N = 4`, two items held, slots 1 and 2 occupied). -/
def bufNF : Prodcons := ⟨[10, 20, 30, 40], 1, 3⟩

/-- A concrete full buffer state (`N = 4`, `(3 + 1) % 4 = 0 = read`). -/
def bufFull : Prodcons := ⟨[10, 20, 30, 40], 0, 3⟩

/-- A concrete empty buffer state (`N = 4`, `read = write`). -/
def bufEmpty : Prodcons := ⟨[10, 20, 30, 40], 2, 2⟩

/-- The buffer state after a successful `Store` into `bufNF`. -/
def bufStored : Prodcons := (Store 4 bufNF 99).getD bufNF

/-- The buffer state after a successful `Get` from `bufNF`. -/
def bufPopped : Prodcons := ((Get 4 bufNF).getD (0, bufNF)).2

/-! ### Basic facts about `Store`, `Get` and `contents` -/

theorem Store_eq_some {N : Nat} {b : Prodcons} {data : Int} {b' : Prodcons}
    (h : Store N b data = some b') :
    (b.write + 1) % N ≠ b.read ∧
    b' = ⟨b.buffer.set b.write data, b.read,
      if b.write + 1 ≥ N then 0 else b.write + 1⟩ := by
  unfold Store at h
  split at h
  · exact absurd h (by simp)
  · exact ⟨by assumption, (Option.some.inj h).symm⟩

theorem Store_of_not_full {N : Nat} {b : Prodcons} (data : Int)
    (h : (b.write + 1) % N ≠ b.read) :
    Store N b data = some ⟨b.buffer.set b.write data, b.read,
      if b.write + 1 ≥ N then 0 else b.write + 1⟩ := by
  unfold Store
  rw [if_neg h]

theorem Store_of_full {N : Nat} {b : Prodcons} (data : Int)
    (h : (b.write + 1) % N = b.read) :
    Store N b data = none := by
  unfold Store
  rw [if_pos h]

theorem Get_eq_some {N : Nat} {b : Prodcons} {v : Int} {b' : Prodcons}
    (h : Get N b = some (v, b')) :
    b.write ≠ b.read ∧ v = b.buffer.getD b.read 0 ∧
    b' = ⟨b.buffer, if b.read + 1 ≥ N then 0 else b.read + 1, b.write⟩ := by
  unfold Get at h
  split at h
  · exact absurd h (by simp)
  · simp only [Option.some.injEq, Prod.mk.injEq] at h
    exact ⟨by assumption, h.1.symm, h.2.symm⟩

theorem Get_of_not_empty {N : Nat} {b : Prodcons} (h : b.write ≠ b.read) :
    Get N b = some (b.buffer.getD b.read 0,
      ⟨b.buffer, if b.read + 1 ≥ N then 0 else b.read + 1, b.write⟩) := by
  unfold Get
  rw [if_neg h]

theorem Get_of_empty {N : Nat} {b : Prodcons} (h : b.write = b.read) :
    Get N b = none := by
  unfold Get
  rw [if_pos h]

theorem contents_length {N : Nat} {b : Prodcons} (hlen : b.buffer.length = N)
    (hr : b.read < N) (hw : b.write < N) :
    (contents N b).length =
      if b.read ≤ b.write then b.write - b.read else b.write + N - b.read := by
  unfold contents
  split
  · simp [hlen]
    omega
  · simp [hlen]
    omega

theorem contents_eq_nil_iff {N : Nat} {b : Prodcons} (hlen : b.buffer.length = N)
    (hr : b.read < N) (hw : b.write < N) :
    contents N b = [] ↔ b.read = b.write := by
  rw [← List.length_eq_zero, contents_length hlen hr hw]
  split <;> omega

/-- A successful `Store` appends its argument to the queue abstraction. -/
theorem contents_store {N : Nat} {b : Prodcons} {data : Int}
    (hlen : b.buffer.length = N) (hr : b.read < N) (hw : b.write < N)
    (hnf : (b.write + 1) % N ≠ b.read) :
    contents N ⟨b.buffer.set b.write data, b.read,
      if b.write + 1 ≥ N then 0 else b.write + 1⟩ =
    contents N b ++ [data] := by
  obtain ⟨l, r, w⟩ := b
  simp only at hlen hr hw hnf ⊢
  have hwl : w < l.length := by omega
  by_cases hwN : w + 1 ≥ N
  · -- the write index wraps to 0
    have hw1 : w + 1 = N := by omega
    have hr0 : r ≠ 0 := by
      intro h0
      exact hnf (by rw [hw1, h0, Nat.mod_self])
    rw [if_pos hwN]
    have hrw : r ≤ w := by omega
    unfold contents
    dsimp only
    rw [if_neg (by omega), if_pos hrw, List.take_zero, List.append_nil,
      List.set_eq_take_cons_drop data hwl, List.drop_append_eq_append_drop,
      List.drop_take]
    have hd1 : l.drop (w + 1) = [] := List.drop_eq_nil_of_le (by omega)
    have hd2 : r - (l.take w).length = 0 := by
      simp [hlen]
      omega
    rw [hd1, hd2, List.drop_zero]
  · -- no wrap: the write index becomes w + 1
    rw [if_neg hwN]
    have hw1N : w + 1 < N := by omega
    unfold contents
    dsimp only
    by_cases hrw : r ≤ w
    · rw [if_pos (by omega), if_pos hrw,
        List.set_eq_take_cons_drop data hwl, List.drop_append_eq_append_drop,
        List.drop_take]
      have hd2 : r - (l.take w).length = 0 := by
        simp [hlen]
        omega
      rw [hd2, List.drop_zero, List.take_append_eq_append_take]
      have hA : ((l.drop r).take (w - r)).length = w - r := by
        simp [hlen]
        omega
      rw [List.take_of_length_le (by omega), hA]
      have h1 : w + 1 - r - (w - r) = 1 := by omega
      rw [h1]
      simp
    · -- write stays strictly below read
      have hwr : w + 1 < r := by
        have := Nat.mod_eq_of_lt hw1N
        omega
      rw [if_neg (by omega), if_neg hrw,
        List.set_eq_take_cons_drop data hwl, List.drop_append_eq_append_drop,
        List.take_append_eq_append_take]
      have htl : (l.take w).length = w := by
        simp [hlen]
        omega
      rw [htl]
      have hdA : (l.take w).drop r = [] := List.drop_eq_nil_of_le (by simp [hlen]; omega)
      have htA : (l.take w).take (w + 1) = l.take w := List.take_of_length_le (by omega)
      rw [hdA, htA]
      have hrw1 : r - w = (r - w - 1) + 1 := by omega
      rw [hrw1, List.drop_succ_cons, List.drop_drop]
      have h2 : w + 1 - w = 1 := by omega
      rw [h2]
      have h3 : w + 1 + (r - w - 1) = r := by omega
      rw [h3]
      simp [List.append_assoc]

/-- A successful `Get` removes the head of the queue abstraction and returns
exactly that value. -/
theorem contents_get {N : Nat} {b : Prodcons}
    (hlen : b.buffer.length = N) (hr : b.read < N) (hw : b.write < N)
    (hne : b.write ≠ b.read) :
    contents N b = b.buffer.getD b.read 0 ::
      contents N ⟨b.buffer, if b.read + 1 ≥ N then 0 else b.read + 1, b.write⟩ := by
  obtain ⟨l, r, w⟩ := b
  simp only at hlen hr hw hne ⊢
  have hrl : r < l.length := by omega
  have hgd : l.getD r 0 = l[r] := by
    rw [List.getD_eq_getElem?_getD, List.getElem?_eq_getElem hrl]
    rfl
  have hdc : l.drop r = l[r] :: l.drop (r + 1) := List.drop_eq_getElem_cons hrl
  by_cases hrw : r ≤ w
  · have hrw' : r < w := by omega
    have hr1N : ¬(r + 1 ≥ N) := by omega
    unfold contents
    dsimp only
    rw [if_pos hrw, if_neg hr1N, if_pos (by omega), hdc, hgd]
    have hwr : w - r = (w - r - 1) + 1 := by omega
    rw [hwr, List.take_succ_cons]
    have h1 : w - (r + 1) = w - r - 1 := by omega
    rw [h1]
  · have hwr : w < r := by omega
    by_cases hrN : r + 1 ≥ N
    · have hr1 : r + 1 = N := by omega
      unfold contents
      dsimp only
      rw [if_neg hrw, if_pos hrN, if_pos (by omega), hdc, hgd]
      have hd1 : l.drop (r + 1) = [] := List.drop_eq_nil_of_le (by omega)
      rw [hd1, List.drop_zero, Nat.sub_zero]
      simp
    · unfold contents
      dsimp only
      rw [if_neg hrw, if_neg hrN, if_neg (by omega), hdc, hgd, List.cons_append]

/-! ### The producer's push sequence -/

theorem pushedList_succ (cnt p : Nat) :
    pushedList cnt (p + 1) = pushedList cnt p ++ [prodValue cnt p] := by
  unfold pushedList
  rw [List.range_succ, List.map_append, List.map_singleton]

theorem LIMIT_not_mem_prodInput (cnt : Nat) : LIMIT ∉ prodInput cnt := by
  unfold prodInput LIMIT
  intro h
  obtain ⟨n, hn, hEq⟩ := List.mem_map.mp h
  have hnn : (0 : Int) ≤ Int.ofNat n := Int.ofNat_nonneg n
  omega

theorem LIMIT_mem_pushedList {cnt p : Nat} (hp : p ≤ cnt + 1)
    (h : LIMIT ∈ pushedList cnt p) : p = cnt + 1 := by
  obtain ⟨n, hn, hEq⟩ := List.mem_map.mp h
  rw [List.mem_range] at hn
  unfold prodValue at hEq
  split at hEq
  · unfold LIMIT at hEq
    have hnn : (0 : Int) ≤ Int.ofNat n := Int.ofNat_nonneg n
    omega
  · omega

theorem pushedList_complete (cnt : Nat) :
    pushedList cnt (cnt + 1) = prodInput cnt ++ [LIMIT] := by
  unfold pushedList prodInput
  rw [List.range_succ, List.map_append, List.map_singleton]
  congr 1
  · exact List.map_congr_left (fun n hn => by
      rw [List.mem_range] at hn
      unfold prodValue
      rw [if_pos hn])
  · unfold prodValue
    rw [if_neg (by omega)]

/-! ### The inductive invariant of the pipeline -/

/-- Safety invariant: index bounds, producer progress bound, the FIFO
abstraction equation (`popped ++ contents = pushed`), the consumer's output
being exactly the non-sentinel popped values, and the sentinel discipline of
the consumer's termination flag. -/
structure Inv (N cnt : Nat) (c : Config) : Prop where
  hlen : c.buf.buffer.length = N
  hr : c.buf.read < N
  hw : c.buf.write < N
  hp : c.p ≤ cnt + 1
  hfifo : c.popped ++ contents N c.buf = pushedList cnt c.p
  hout : c.output = c.popped.filter (fun v => v != LIMIT)
  hdone : c.consDone = true → ∃ q, c.popped = q ++ [LIMIT] ∧ LIMIT ∉ q
  hndone : c.consDone = false → LIMIT ∉ c.popped

theorem inv_init {N cnt : Nat} (hN : 0 < N) : Inv N cnt (initConfig N) := by
  constructor
  · simp [initConfig, init]
  · exact hN
  · exact hN
  · simp [initConfig]
  · simp [initConfig, init, contents, pushedList]
  · simp [initConfig]
  · simp [initConfig]
  · simp [initConfig]

theorem inv_step {N cnt : Nat} {c c' : Config} (hN : 0 < N)
    (hc : Inv N cnt c) (hs : Step N cnt c c') : Inv N cnt c' := by
  obtain ⟨hlen, hr, hw, hp, hfifo, hout, hdone, hndone⟩ := hc
  cases hs with
  | prod b' hplt hstore =>
    obtain ⟨hnf, hb'⟩ := Store_eq_some hstore
    subst hb'
    constructor
    · simpa using hlen
    · exact hr
    · dsimp only
      split <;> omega
    · dsimp only
      omega
    · dsimp only
      rw [contents_store hlen hr hw hnf, pushedList_succ, ← List.append_assoc,
        hfifo]
    · exact hout
    · exact hdone
    · exact hndone
  | cons v b' hcd hget =>
    obtain ⟨hne, hv, hb'⟩ := Get_eq_some hget
    subst hb'
    have hcg := contents_get hlen hr hw hne
    constructor
    · exact hlen
    · dsimp only
      split <;> omega
    · exact hw
    · exact hp
    · dsimp only
      rw [← hfifo, hcg, ← hv]
      simp
    · dsimp only
      rw [List.filter_append, ← hout]
      by_cases hvL : v = LIMIT
      · simp [hvL]
      · simp [hvL]
    · dsimp only
      intro h
      have hvL : v = LIMIT := of_decide_eq_true h
      exact ⟨c.popped, by rw [hvL], hndone hcd⟩
    · dsimp only
      intro h
      have hvL : ¬(v = LIMIT) := of_decide_eq_false h
      simp only [List.mem_append, List.mem_singleton]
      rintro (h1 | h2)
      · exact hndone hcd h1
      · exact hvL h2.symm

theorem inv_reachable {N cnt : Nat} {c : Config} (hN : 0 < N)
    (h : Reachable N cnt c) : Inv N cnt c := by
  induction h with
  | refl => exact inv_init hN
  | tail hab hstep ih => exact inv_step hN ih hstep

/-! ### Complete runs -/

theorem sentinel_append_inj {q s rest : List Int}
    (h : q ++ LIMIT :: rest = s ++ [LIMIT]) (hq : LIMIT ∉ q) (hs : LIMIT ∉ s) :
    q = s ∧ rest = [] := by
  induction q generalizing s with
  | nil =>
    cases s with
    | nil =>
      simp only [List.nil_append] at h
      injection h with h1 h2
      exact ⟨rfl, h2⟩
    | cons x s' =>
      simp only [List.nil_append, List.cons_append] at h
      injection h with h1 h2
      subst h1
      exact absurd (List.mem_cons_self _ _) hs
  | cons a q' ih =>
    cases s with
    | nil =>
      simp only [List.cons_append, List.nil_append] at h
      injection h with h1 h2
      subst h1
      exact absurd (List.mem_cons_self _ _) hq
    | cons x s' =>
      simp only [List.cons_append] at h
      injection h with h1 h2
      have hq' : LIMIT ∉ q' := fun hm => hq (List.mem_cons_of_mem a hm)
      have hs' : LIMIT ∉ s' := fun hm => hs (List.mem_cons_of_mem x hm)
      obtain ⟨hqs, hrest⟩ := ih h2 hq' hs'
      exact ⟨by rw [h1, hqs], hrest⟩

/-- In any reachable configuration where the consumer has terminated, the
producer has completed all of its pushes, the popped sequence is exactly the
pushed sequence, the buffer is empty and the output is exactly the data
items. -/
theorem complete_run {N cnt : Nat} {c : Config} (hN : 0 < N)
    (hreach : Reachable N cnt c) (hdone : c.consDone = true) :
    c.p = cnt + 1 ∧ c.popped = prodInput cnt ++ [LIMIT] ∧
      contents N c.buf = [] ∧ c.output = prodInput cnt := by
  obtain ⟨hlen, hr, hw, hp, hfifo, hout, hd, hnd⟩ := inv_reachable hN hreach
  obtain ⟨q, hpop, hqL⟩ := hd hdone
  have hmem : LIMIT ∈ pushedList cnt c.p := by
    rw [← hfifo, hpop]
    simp
  have hpeq : c.p = cnt + 1 := LIMIT_mem_pushedList hp hmem
  rw [hpeq, pushedList_complete, hpop, List.append_assoc,
    List.singleton_append] at hfifo
  obtain ⟨hq, hcont⟩ := sentinel_append_inj hfifo hqL (LIMIT_not_mem_prodInput cnt)
  refine ⟨hpeq, by rw [hpop, hq], hcont, ?_⟩
  rw [hout, hpop, hq, List.filter_append]
  have h1 : (prodInput cnt).filter (fun v => v != LIMIT) = prodInput cnt :=
    List.filter_eq_self.mpr (fun a ha => by
      have hne : a ≠ LIMIT := fun hEq => LIMIT_not_mem_prodInput cnt (hEq ▸ ha)
      simp [hne])
  rw [h1]
  simp

/-! ### Soundness of the executable scheduler -/

theorem doProd_sound {N cnt : Nat} {c c' : Config}
    (h : doProd N cnt c = some c') : Step N cnt c c' := by
  unfold doProd at h
  split at h
  · rename_i hplt
    split at h
    · rename_i b' hstore
      injection h with h'
      subst h'
      exact Step.prod c b' hplt hstore
    · exact absurd h (by simp)
  · exact absurd h (by simp)

theorem doCons_sound {N cnt : Nat} {c c' : Config}
    (h : doCons N cnt c = some c') : Step N cnt c c' := by
  unfold doCons at h
  split at h
  · rename_i hcd
    split at h
    · rename_i v b' hget
      injection h with h'
      subst h'
      exact Step.cons c v b' hcd hget
    · exact absurd h (by simp)
  · exact absurd h (by simp)

theorem execOps_sound {N cnt : Nat} (ops : List Bool) :
    ∀ {c c' : Config}, execOps N cnt ops c = some c' →
      Reachable N cnt c → Reachable N cnt c' := by
  induction ops with
  | nil =>
    intro c c' h hr
    unfold execOps at h
    injection h with h'
    subst h'
    exact hr
  | cons op rest ih =>
    intro c c' h hr
    unfold execOps at h
    split at h
    · rename_i c1 heq
      refine ih h (Relation.ReflTransGen.tail hr ?_)
      cases op
      · simp only [Bool.false_eq_true, if_false] at heq
        exact doCons_sound heq
      · simp only [if_pos] at heq
        exact doProd_sound heq
    · exact absurd h (by simp)

/-! ### Termination and deadlock freedom -/

theorem step_measure {N cnt : Nat} {c c' : Config} (hN : 0 < N)
    (hc : Inv N cnt c) (hs : Step N cnt c c') :
    measureC cnt c' < measureC cnt c := by
  obtain ⟨hlen, hr, hw, hp, hfifo, hout, hdone, hndone⟩ := hc
  have hplen : c.popped.length + (contents N c.buf).length = c.p := by
    have hc := congrArg List.length hfifo
    simpa [pushedList] using hc
  cases hs with
  | prod b' hplt hstore =>
    unfold measureC
    dsimp only
    omega
  | cons v b' hcd hget =>
    obtain ⟨hne, hv, hb'⟩ := Get_eq_some hget
    have hcne : contents N c.buf ≠ [] := by
      rw [Ne, contents_eq_nil_iff hlen hr hw]
      omega
    have hclen : 0 < (contents N c.buf).length := List.length_pos.mpr hcne
    unfold measureC
    dsimp only
    rw [List.length_append]
    simp only [List.length_singleton]
    omega

/-- Deadlock freedom: from any reachable configuration in which the pipeline
has not finished (producer still has pushes to do, or consumer has not yet
popped the sentinel), some thread can take a step. -/
theorem progress {N cnt : Nat} {c : Config} (hN : 2 ≤ N)
    (hreach : Reachable N cnt c)
    (hnt : ¬(c.p = cnt + 1 ∧ c.consDone = true)) :
    ∃ c', Step N cnt c c' := by
  obtain ⟨hlen, hr, hw, hp, hfifo, hout, hdone, hndone⟩ :=
    inv_reachable (by omega) hreach
  by_cases hpd : c.p = cnt + 1
  · -- the producer is finished, so the consumer is not; the buffer cannot
    -- be empty, for then the sentinel would already have been popped
    have hcd : c.consDone ≠ true := fun h => hnt ⟨hpd, h⟩
    have hcd' : c.consDone = false := by
      cases h : c.consDone
      · rfl
      · exact absurd h hcd
    have hcne : contents N c.buf ≠ [] := by
      intro hnil
      apply hndone hcd'
      have hpq : c.popped = pushedList cnt c.p := by
        rw [← hfifo, hnil, List.append_nil]
      rw [hpq, hpd, pushedList_complete]
      simp
    have hner : c.buf.write ≠ c.buf.read := by
      intro hEq
      exact hcne ((contents_eq_nil_iff hlen hr hw).mpr hEq.symm)
    exact ⟨_, Step.cons c _ _ hcd' (Get_of_not_empty hner)⟩
  · -- the producer still has pushes to do
    have hplt : c.p < cnt + 1 := by omega
    by_cases hfull : (c.buf.write + 1) % N = c.buf.read
    · -- buffer full: it holds N - 1 ≥ 1 items, and the consumer cannot be
      -- done (the sentinel has not even been pushed), so the consumer moves
      have hcd' : c.consDone = false := by
        cases h : c.consDone
        · rfl
        · obtain ⟨q, hq, hqL⟩ := hdone h
          have hmem : LIMIT ∈ pushedList cnt c.p := by
            rw [← hfifo, hq]
            simp
          exact absurd (LIMIT_mem_pushedList hp hmem) hpd
      have hclen : (contents N c.buf).length = N - 1 := by
        rw [contents_length hlen hr hw]
        rcases Nat.lt_or_ge (c.buf.write + 1) N with h1 | h1
        · rw [Nat.mod_eq_of_lt h1] at hfull
          rw [if_neg (by omega)]
          omega
        · have hw1 : c.buf.write + 1 = N := by omega
          rw [hw1, Nat.mod_self] at hfull
          rw [if_pos (by omega)]
          omega
      have hner : c.buf.write ≠ c.buf.read := by
        intro hEq
        have hnil := (contents_eq_nil_iff hlen hr hw).mpr hEq.symm
        rw [hnil] at hclen
        simp at hclen
        omega
      exact ⟨_, Step.cons c _ _ hcd' (Get_of_not_empty hner)⟩
    · exact ⟨_, Step.prod c _ hplt (Store_of_not_full _ hfull)⟩

/-- There is no infinite execution of the pipeline: the measure
`measureC` strictly decreases along every step. -/
theorem no_infinite_run {N cnt : Nat} (hN : 0 < N) :
    ¬∃ f : Nat → Config, f 0 = initConfig N ∧
      ∀ i, Step N cnt (f i) (f (i + 1)) := by
  rintro ⟨f, h0, hstep⟩
  have hreach : ∀ i, Reachable N cnt (f i) := by
    intro i
    induction i with
    | zero =>
      show Reachable N cnt (f 0)
      rw [h0]
      exact Relation.ReflTransGen.refl
    | succ i ih => exact Relation.ReflTransGen.tail ih (hstep i)
  have hdec : ∀ i, measureC cnt (f (i + 1)) < measureC cnt (f i) :=
    fun i => step_measure hN (inv_reachable hN (hreach i)) (hstep i)
  have hbound : ∀ i, measureC cnt (f i) + i ≤ measureC cnt (f 0) := by
    intro i
    induction i with
    | zero => omega
    | succ i ih =>
      have hd := hdec i
      omega
  have hfin := hbound (measureC cnt (f 0) + 1)
  omega

/-- The source's wrap-around increment equals incrementing modulo `N`. -/
theorem wrap_eq_mod {i N : Nat} (h : i < N) :
    (if i + 1 ≥ N then 0 else i + 1) = (i + 1) % N := by
  rcases Nat.lt_or_ge (i + 1) N with h1 | h1
  · rw [if_neg (by omega), Nat.mod_eq_of_lt h1]
  · rw [if_pos h1]
    have h2 : i + 1 = N := by omega
    rw [h2, Nat.mod_self]

/-! ### The claims -/

/-- C1: in every run of the pipeline in which the consumer has terminated,
the sequence of values returned by successive `Get` calls is exactly the
sequence pushed by the producer (`0, ..., cnt-1` then the sentinel), and,
excluding the sentinel, it equals the sequence of data values pushed, in the
same order (FIFO delivery). -/
theorem fifo_order (N cnt : Nat) (c : Config) (hN : 0 < N)
    (hreach : Reachable N cnt c) (hdone : c.consDone = true) :
    c.popped = prodInput cnt ++ [LIMIT] ∧
    c.popped.filter (fun v => v != LIMIT) = prodInput cnt := by
  obtain ⟨hp, hpop, hcont, hout⟩ := complete_run hN hreach hdone
  refine ⟨hpop, ?_⟩
  have h2 := (inv_reachable hN hreach).hout
  rw [← h2]
  exact hout

theorem fifo_order_witness :
    wSmall.popped = prodInput 0 ++ [LIMIT] ∧
    wSmall.popped.filter (fun v => v != LIMIT) = prodInput 0 :=
  fifo_order 2 0 wSmall (by decide)
    (execOps_sound schedSmall (by decide) Relation.ReflTransGen.refl) (by decide)

/-- C2: in every reachable configuration the indices are in `[0, N)`, the
number of items held equals `(write - read) mod N` and lies in `[0, N-1]`,
the buffer is empty iff `read = write`, and full (holds `N-1` items) iff
`(write + 1) % N = read`.  Since this holds for every reachable
configuration, it is preserved by every `Store` and `Get`. -/
theorem buffer_invariants (N cnt : Nat) (c : Config) (hN : 0 < N)
    (hreach : Reachable N cnt c) :
    c.buf.read < N ∧ c.buf.write < N ∧
    (contents N c.buf).length ≤ N - 1 ∧
    ((contents N c.buf).length : Int) =
      ((c.buf.write : Int) - (c.buf.read : Int)) % (N : Int) ∧
    (contents N c.buf = [] ↔ c.buf.read = c.buf.write) ∧
    ((contents N c.buf).length = N - 1 ↔
      (c.buf.write + 1) % N = c.buf.read) := by
  obtain ⟨hlen, hr, hw, hp, hfifo, hout, hdone, hndone⟩ := inv_reachable hN hreach
  have hcl := contents_length hlen hr hw
  refine ⟨hr, hw, ?_, ?_, contents_eq_nil_iff hlen hr hw, ?_⟩
  · rw [hcl]
    split <;> omega
  · rw [hcl]
    by_cases hrw : c.buf.read ≤ c.buf.write
    · rw [if_pos hrw, Int.emod_eq_of_lt (by omega) (by omega)]
      omega
    · rw [if_neg hrw, ← Int.add_emod_self,
        Int.emod_eq_of_lt (by omega) (by omega)]
      omega
  · rw [hcl]
    rcases Nat.lt_or_ge (c.buf.write + 1) N with h1 | h1
    · rw [Nat.mod_eq_of_lt h1]
      split <;> omega
    · have hw1 : c.buf.write + 1 = N := by omega
      rw [hw1, Nat.mod_self]
      split <;> omega

theorem buffer_invariants_witness :
    wFull.buf.read < BUFFER_SIZE ∧
    (contents BUFFER_SIZE wFull.buf).length ≤ BUFFER_SIZE - 1 := by
  have h := buffer_invariants BUFFER_SIZE COUNT wFull (by decide)
    (execOps_sound schedFull (by decide) Relation.ReflTransGen.refl)
  exact ⟨h.1, h.2.2.1⟩

/-- C3: once the producer has completed all of its pushes, the pushed sequence
is exactly `0, 1, ..., cnt-1` in increasing order followed by the sentinel,
the sentinel was pushed exactly once and as the final push, and no step of
the pipeline performs any further push; moreover, whenever the consumer has
terminated, the sentinel was the last value popped. -/
theorem producer_sequence (N cnt : Nat) (c : Config) (hN : 0 < N)
    (hreach : Reachable N cnt c) :
    (c.p = cnt + 1 →
      pushedList cnt c.p = prodInput cnt ++ [LIMIT] ∧
      (pushedList cnt c.p).count LIMIT = 1 ∧
      (∀ c', Step N cnt c c' → c'.p = c.p)) ∧
    (c.consDone = true → ∃ q, c.popped = q ++ [LIMIT] ∧ LIMIT ∉ q) := by
  refine ⟨fun hpd => ⟨?_, ?_, ?_⟩, (inv_reachable hN hreach).hdone⟩
  · rw [hpd, pushedList_complete]
  · rw [hpd, pushedList_complete, List.count_append,
      List.count_eq_zero.mpr (LIMIT_not_mem_prodInput cnt)]
    simp
  · intro c' hs
    cases hs with
    | prod b' hplt hstore => exact absurd hplt (by omega)
    | cons v b' hcd hget => rfl

theorem producer_sequence_witness :
    pushedList COUNT wFull.p = prodInput COUNT ++ [LIMIT] ∧
    (pushedList COUNT wFull.p).count LIMIT = 1 := by
  have h := producer_sequence BUFFER_SIZE COUNT wFull (by decide)
    (execOps_sound schedFull (by decide) Relation.ReflTransGen.refl)
  exact ⟨(h.1 (by decide)).1, (h.1 (by decide)).2.1⟩

/-- C4: the consumer's output is exactly the non-sentinel values it popped, in
order (it processes every non-sentinel value and never the sentinel); it has
terminated exactly when it has popped the sentinel; and after termination it
performs no further pop (no step changes its popped sequence or output). -/
theorem consumer_behavior (N cnt : Nat) (c : Config) (hN : 0 < N)
    (hreach : Reachable N cnt c) :
    c.output = c.popped.filter (fun v => v != LIMIT) ∧
    (c.consDone = true ↔ LIMIT ∈ c.popped) ∧
    (c.consDone = true → ∀ c', Step N cnt c c' →
      c'.popped = c.popped ∧ c'.output = c.output ∧ c'.consDone = true) := by
  have inv := inv_reachable hN hreach
  refine ⟨inv.hout, ⟨fun h => ?_, fun h => ?_⟩, fun hd c' hs => ?_⟩
  · obtain ⟨q, hq, hqL⟩ := inv.hdone h
    rw [hq]
    simp
  · cases hcv : c.consDone
    · exact absurd h (inv.hndone hcv)
    · rfl
  · cases hs with
    | prod b' hplt hstore => exact ⟨rfl, rfl, hd⟩
    | cons v b' hcd hget =>
      rw [hd] at hcd
      exact absurd hcd (by simp)

theorem consumer_behavior_witness :
    wFull.output = wFull.popped.filter (fun v => v != LIMIT) ∧
    (wFull.consDone = true ↔ LIMIT ∈ wFull.popped) := by
  have h := consumer_behavior BUFFER_SIZE COUNT wFull (by decide)
    (execOps_sound schedFull (by decide) Relation.ReflTransGen.refl)
  exact ⟨h.1, h.2.1⟩

/-- C5: when the buffer is not full, `Store` writes its argument into the slot
at `write` and advances `write` by one modulo `N`; when the buffer is full,
`Store` performs no state change (the caller waits). -/
theorem store_behavior (N : Nat) (b : Prodcons) (data : Int)
    (hw : b.write < N) (hlen : b.buffer.length = N) :
    ((b.write + 1) % N ≠ b.read →
      Store N b data = some ⟨b.buffer.set b.write data, b.read,
        (b.write + 1) % N⟩ ∧
      (b.buffer.set b.write data).getD b.write 0 = data) ∧
    ((b.write + 1) % N = b.read → Store N b data = none) := by
  refine ⟨fun hnf => ⟨?_, ?_⟩, Store_of_full data⟩
  · rw [Store_of_not_full data hnf, wrap_eq_mod hw]
  · rw [List.getD_eq_getElem?_getD, List.getElem?_set_self (by omega)]
    rfl

theorem store_behavior_witness :
    Store 4 bufNF 99 = some ⟨bufNF.buffer.set bufNF.write 99, bufNF.read,
      (bufNF.write + 1) % 4⟩ ∧
    Store 4 bufFull 99 = none :=
  ⟨((store_behavior 4 bufNF 99 (by decide) (by decide)).1 (by decide)).1,
   (store_behavior 4 bufFull 99 (by decide) (by decide)).2 (by decide)⟩

/-- C6: when the buffer is not empty, `Get` returns the value stored at `read`
and advances `read` by one modulo `N` (leaving the slot array unchanged); when
the buffer is empty, `Get` performs no state change (the caller waits). -/
theorem get_behavior (N : Nat) (b : Prodcons) (hr : b.read < N) :
    (b.write ≠ b.read →
      Get N b = some (b.buffer.getD b.read 0,
        ⟨b.buffer, (b.read + 1) % N, b.write⟩)) ∧
    (b.write = b.read → Get N b = none) := by
  refine ⟨fun hne => ?_, Get_of_empty⟩
  rw [Get_of_not_empty hne, wrap_eq_mod hr]

theorem get_behavior_witness :
    Get 4 bufNF = some (bufNF.buffer.getD bufNF.read 0,
      ⟨bufNF.buffer, (bufNF.read + 1) % 4, bufNF.write⟩) ∧
    Get 4 bufEmpty = none :=
  ⟨(get_behavior 4 bufNF (by decide)).1 (by decide),
   (get_behavior 4 bufEmpty (by decide)).2 (by decide)⟩

/-- C7: for any `cnt ≥ 0` and any capacity `N ≥ 2` the pipeline cannot
deadlock — from any reachable unfinished configuration some thread can step —
and it cannot run forever: there is no infinite execution, so both threads
reach their terminal state in finitely many steps. -/
theorem pipeline_terminates (N cnt : Nat) (hN : 2 ≤ N) :
    (∀ c, Reachable N cnt c → ¬(c.p = cnt + 1 ∧ c.consDone = true) →
      ∃ c', Step N cnt c c') ∧
    ¬∃ f : Nat → Config, f 0 = initConfig N ∧
      ∀ i, Step N cnt (f i) (f (i + 1)) :=
  ⟨fun c hreach hnt => progress hN hreach hnt, no_infinite_run (by omega)⟩

theorem pipeline_terminates_witness : ∃ c', Step 4 11 (initConfig 4) c' :=
  (pipeline_terminates 4 11 (by decide)).1 (initConfig 4)
    Relation.ReflTransGen.refl (by decide)

/-- C8 (counterexample): even when the mutex initialization fails (a nonzero
return code), the startup sequence of `main` contains no abort and still
spawns both tasks, refuting the claim that initialization failure aborts
startup before any task is spawned. -/
theorem startup_no_abort_on_failure :
    (1 : Int) ≠ 0 ∧
    StartupEvent.abortRun ∉ mainStartup 1 0 0 ∧
    StartupEvent.spawnConsumer ∈ mainStartup 1 0 0 ∧
    StartupEvent.spawnProducer ∈ mainStartup 1 0 0 := by
  refine ⟨by decide, by decide, by decide, by decide⟩

/-- C8 (amended): initialization of the synchronization primitives happens
before either task is spawned, but its return codes are never examined: for
every combination of return codes — including failing ones — the startup
sequence is the same, contains no abort, and spawns both tasks after
initialization. -/
theorem startup_ignores_init_failures (rcMutex rcNotEmpty rcNotFull : Int) :
    mainStartup rcMutex rcNotEmpty rcNotFull =
      [StartupEvent.callInit, StartupEvent.seedRandom,
       StartupEvent.spawnConsumer, StartupEvent.spawnProducer] ∧
    StartupEvent.abortRun ∉ mainStartup rcMutex rcNotEmpty rcNotFull :=
  ⟨rfl, by
    intro h
    simp [mainStartup] at h⟩

/-- C9: with the configured constants `N = BUFFER_SIZE = 4`,
`COUNT = 11` and sentinel `-1`, in every run in which the consumer has
terminated its output is exactly `0, 1, ..., 10` in order, and afterwards the
consumer pops nothing further. -/
theorem scenario_output (c : Config)
    (hreach : Reachable BUFFER_SIZE COUNT c) (hdone : c.consDone = true) :
    c.output = [0, 1, 2, 3, 4, 5, 6, 7, 8, 9, 10] ∧
    (∀ c', Step BUFFER_SIZE COUNT c c' →
      c'.output = c.output ∧ c'.consDone = true) := by
  obtain ⟨hp, hpop, hcont, hout⟩ := complete_run (by decide) hreach hdone
  constructor
  · rw [hout]
    decide
  · intro c' hs
    cases hs with
    | prod b' hplt hstore => exact absurd hplt (by omega)
    | cons v b' hcd hget =>
      rw [hdone] at hcd
      exact absurd hcd (by simp)

theorem scenario_output_witness :
    wFull.output = [0, 1, 2, 3, 4, 5, 6, 7, 8, 9, 10] :=
  (scenario_output wFull
    (execOps_sound schedFull (by decide) Relation.ReflTransGen.refl)
    (by decide)).1

/-- C10: frame conditions — a successful `Store` leaves `read` and every slot
other than the one at the old `write` unchanged (and preserves the array
length), and a successful `Get` leaves `write` and the entire slot array
unchanged. -/
theorem frame_conditions (N : Nat) (b : Prodcons) (data : Int) :
    (∀ b', Store N b data = some b' →
      b'.read = b.read ∧
      b'.buffer.length = b.buffer.length ∧
      (∀ i, i ≠ b.write → b'.buffer.getD i 0 = b.buffer.getD i 0)) ∧
    (∀ v b', Get N b = some (v, b') →
      b'.write = b.write ∧ b'.buffer = b.buffer) := by
  constructor
  · intro b' hstore
    obtain ⟨hnf, hb'⟩ := Store_eq_some hstore
    subst hb'
    refine ⟨rfl, by simp, fun i hi => ?_⟩
    dsimp only
    rw [List.getD_eq_getElem?_getD, List.getD_eq_getElem?_getD,
      List.getElem?_set_ne (Ne.symm hi)]
  · intro v b' hget
    obtain ⟨hne, hv, hb'⟩ := Get_eq_some hget
    subst hb'
    exact ⟨rfl, rfl⟩

theorem frame_conditions_witness :
    bufStored.read = bufNF.read ∧
    bufStored.buffer.getD 0 0 = bufNF.buffer.getD 0 0 ∧
    bufPopped.write = bufNF.write ∧
    bufPopped.buffer = bufNF.buffer := by
  have h := frame_conditions 4 bufNF 99
  have h1 := h.1 bufStored (by decide)
  have h2 := h.2 20 bufPopped (by decide)
  exact ⟨h1.1, h1.2.2 0 (by decide), h2.1, h2.2⟩

end ProdConsC
